import Mathlib

/-!
Verification of the three-rotor substitution-cipher engine (enigma.js).

The definitions below are a shallow embedding of the source: the mutable
rotor/machine state becomes explicit state passing, JavaScript numbers
become Int, strings become lists of characters, and the fallible
constructor returns an Option.
-/

set_option maxRecDepth 4000

/-- The fixed 26-letter uppercase alphabet of the machine. -/
def alphabet : List Char := "ABCDEFGHIJKLMNOPQRSTUVWXYZ".toList

/-- The source's mod(n, m) = ((n % m) + m) % m. For m > 0 this produces the
representative in [0, m) under JavaScript's truncated remainder and under
Lean's Int.emod alike, so Lean's % is used for the inner remainders. -/
def mod (n m : Int) : Int := ((n % m) + m) % m

/-- Character lookup s[i]. JavaScript yields undefined out of range; the
null character stands in for undefined (in-range indices never see it). -/
def charAt (s : List Char) (i : Int) : Char :=
  if 0 ≤ i then s.getD i.toNat (Char.ofNat 0) else Char.ofNat 0

/-- JavaScript String.indexOf: first index of c in s, and -1 when absent. -/
def indexOf : List Char → Char → Int
  | [], _ => -1
  | x :: xs, c =>
    if x == c then 0
    else
      let r := indexOf xs c
      if r < 0 then -1 else r + 1

/-- One catalog entry: wiring permutation plus notch letter. -/
structure RotorData where
  wiring : List Char
  notch : Char
deriving DecidableEq, Repr, Inhabited

/-- The rotor catalog (rotors I, II, III). -/
def ROTORS : List RotorData :=
  [⟨"EKMFLGDQVZNTOWYHXUSPAIBRCJ".toList, 'Q'⟩,
   ⟨"AJDKSIRUXBLHWTMCQGZNPYFVOE".toList, 'E'⟩,
   ⟨"BDFHJLCPRTXVZNYEIWGAKMUSQO".toList, 'V'⟩]

/-- The fixed reflector table. -/
def REFLECTOR : List Char := "YRUHQSLDPXNGOKMIEBFZCWVJAT".toList

/-- Scan the pairs; return the partner of the first pair containing c,
otherwise c itself. -/
def plugboardSwap (c : Char) : List (Char × Char) → Char
  | [] => c
  | (a, b) :: rest =>
    if c == a then b else if c == b then a else plugboardSwap c rest

/-- Rotor state: wiring, notch, ring setting, and the mutable position. -/
structure Rotor where
  wiring : List Char
  notch : Char
  ringSetting : Int
  position : Int
deriving DecidableEq, Repr

instance : Inhabited Rotor := ⟨⟨[], Char.ofNat 0, 0, 0⟩⟩

/-- position = mod(position + 1, 26). -/
def Rotor.step (r : Rotor) : Rotor := { r with position := mod (r.position + 1) 26 }

/-- alphabet[position] === notch. -/
def Rotor.atNotch (r : Rotor) : Bool := charAt alphabet r.position == r.notch

/-- Forward pass of one rotor. -/
def Rotor.forward (r : Rotor) (c : Char) : Char :=
  let inputPos := mod (indexOf alphabet c + r.position - r.ringSetting) 26
  let outputChar := charAt r.wiring inputPos
  let outputPos := mod (indexOf alphabet outputChar - r.position + r.ringSetting) 26
  charAt alphabet outputPos

/-- Backward pass of one rotor. -/
def Rotor.backward (r : Rotor) (c : Char) : Char :=
  let inputPos := mod (indexOf alphabet c + r.position - r.ringSetting) 26
  let wiringPos := indexOf r.wiring (charAt alphabet inputPos)
  let outputPos := mod (wiringPos - r.position + r.ringSetting) 26
  charAt alphabet outputPos

/-- Machine state: the rotor list (left, middle, right) and the plug pairs. -/
structure Enigma where
  rotors : List Rotor
  plugboardPairs : List (Char × Char)
deriving DecidableEq, Repr

/-- One keystroke of the stepping controller, exactly in source order. -/
def Enigma.stepRotors (e : Enigma) : Enigma :=
  let rs0 := e.rotors
  -- check if middle rotor is at notch BEFORE any stepping
  let middleAtNotch := (rs0.getD 1 default).atNotch
  -- if the rightmost rotor is at notch, step the middle rotor
  let rs1 := if (rs0.getD 2 default).atNotch then rs0.set 1 (rs0.getD 1 default).step else rs0
  -- if middle was at notch, or is now at notch after stepping, double step
  let middleNowAtNotch := (rs1.getD 1 default).atNotch
  let rs2 :=
    if middleAtNotch || middleNowAtNotch then
      let rsA := rs1.set 0 (rs1.getD 0 default).step
      rsA.set 1 (rsA.getD 1 default).step
    else rs1
  -- the rightmost rotor always steps
  let rs3 := rs2.set 2 (rs2.getD 2 default).step
  { e with rotors := rs3 }

/-- Forward pass through the whole stack, right to left: the source's
downward for-loop over the rotor array. -/
def fwdChain (rs : List Rotor) (c : Char) : Char := rs.foldr (fun r ch => r.forward ch) c

/-- Backward pass through the whole stack, left to right: the upward loop. -/
def bwdChain (rs : List Rotor) (c : Char) : Char := rs.foldl (fun ch r => r.backward ch) c

/-- REFLECTOR[alphabet.indexOf(c)]. -/
def reflect (c : Char) : Char := charAt REFLECTOR (indexOf alphabet c)

/-- encryptChar: non-alphabet characters return unchanged with no state
change; otherwise step the rotors, then run the substitution pipeline. -/
def Enigma.encryptChar (e : Enigma) (c : Char) : Char × Enigma :=
  if !(alphabet.contains c) then (c, e)
  else
    let e1 := e.stepRotors
    let c1 := plugboardSwap c e1.plugboardPairs
    let c2 := fwdChain e1.rotors c1
    let c3 := reflect c2
    let c4 := bwdChain e1.rotors c3
    -- apply plugboard swap again on the way out
    let c5 := plugboardSwap c4 e1.plugboardPairs
    (c5, e1)

/-- process: map encryptChar over the text, threading the machine state. -/
def Enigma.process (e : Enigma) : List Char → List Char × Enigma
  | [] => ([], e)
  | c :: cs =>
    let p := e.encryptChar c
    let q := p.2.process cs
    (p.1 :: q.1, q.2)

/-- rotorIDs.map((id, i) => new Rotor(ROTORS[id].wiring, ROTORS[id].notch,
ringSettings[i], rotorPositions[i])): looking up ROTORS[id] out of catalog
range gives undefined and the .wiring access throws, modelled as none.
Positions or rings lists shorter than rotorIDs would supply undefined in
JavaScript; headD 0 stands in, unexercised by the claims. -/
def mkRotors : List Nat → List Int → List Int → Option (List Rotor)
  | [], _, _ => some []
  | id :: ids, rotorPositions, ringSettings =>
    match ROTORS[id]? with
    | none => none
    | some rd =>
      match mkRotors ids rotorPositions.tail ringSettings.tail with
      | none => none
      | some rest =>
        some (Rotor.mk rd.wiring rd.notch (ringSettings.headD 0) (rotorPositions.headD 0) :: rest)

/-- The Enigma constructor. An exception during construction leaves no
machine, modelled by none. -/
def Enigma.make (rotorIDs : List Nat) (rotorPositions ringSettings : List Int)
    (plugboardPairs : List (Char × Char)) : Option Enigma :=
  (mkRotors rotorIDs rotorPositions ringSettings).map (fun rs => ⟨rs, plugboardPairs⟩)

/-- Observer: the three rotor positions, left to right. -/
def Enigma.positions (e : Enigma) : List Int := e.rotors.map (fun r => r.position)

/-- Observer: the rightmost rotor's position. -/
def rightPos (e : Enigma) : Int := (e.rotors.getD 2 default).position

/-- Each letter occurs in at most one pair: the pairs are pairwise disjoint. -/
def validPairs : List (Char × Char) → Bool
  | [] => true
  | p :: rest =>
    rest.all (fun q => !(p.1 == q.1 || p.1 == q.2 || p.2 == q.1 || p.2 == q.2)) &&
    validPairs rest

/-- All plug letters are uppercase alphabet letters. -/
def alphaPairs (pairs : List (Char × Char)) : Bool :=
  pairs.all (fun p => alphabet.contains p.1 && alphabet.contains p.2)

/-- A valid configuration in the sense of the spec: three catalog rotors,
ring settings and positions in [0,25], disjoint alphabetic plug pairs. -/
def ValidEnigma (e : Enigma) : Prop :=
  e.rotors.length = 3 ∧
  (∀ r ∈ e.rotors, (RotorData.mk r.wiring r.notch) ∈ ROTORS ∧
    0 ≤ r.ringSetting ∧ r.ringSetting < 26 ∧ 0 ≤ r.position ∧ r.position < 26) ∧
  validPairs e.plugboardPairs = true ∧ alphaPairs e.plugboardPairs = true

instance decValidEnigma (e : Enigma) : Decidable (ValidEnigma e) := by
  unfold ValidEnigma
  exact inferInstance

/-- A machine built from the three-rotor catalog with positions and ring
settings in [0,25] and uppercase-letter plugboard pairs. Pair disjointness is
not required: a letter may occur in several pairs (first match wins). -/
def CatalogEnigma (e : Enigma) : Prop :=
  e.rotors.length = 3 ∧
  (∀ r ∈ e.rotors, (RotorData.mk r.wiring r.notch) ∈ ROTORS ∧
    0 ≤ r.ringSetting ∧ r.ringSetting < 26 ∧ 0 ≤ r.position ∧ r.position < 26) ∧
  alphaPairs e.plugboardPairs = true

instance decCatalogEnigma (e : Enigma) : Decidable (CatalogEnigma e) := by
  unfold CatalogEnigma
  exact inferInstance

/-- The invariant the pipeline lemmas need, preserved by stepping: three
rotors whose wirings permute the alphabet, disjoint alphabetic plug pairs. -/
def GoodEnigma (e : Enigma) : Prop :=
  e.rotors.length = 3 ∧
  (∀ r ∈ e.rotors, List.Perm r.wiring alphabet) ∧
  validPairs e.plugboardPairs = true ∧ alphaPairs e.plugboardPairs = true

/-- Number of alphabetic characters in a text. -/
def countAlpha (text : List Char) : Nat := text.countP (fun c => alphabet.contains c)

/-! ### Arithmetic and lookup toolkit -/

theorem mod_eq_emod (n : Int) : mod n 26 = n % 26 := by unfold mod; omega

theorem mod_range (n : Int) : 0 ≤ mod n 26 ∧ mod n 26 < 26 := by
  rw [mod_eq_emod]; omega

theorem charAt_eq_getD (s : List Char) (i : Int) (h : 0 ≤ i) :
    charAt s i = s.getD i.toNat (Char.ofNat 0) := by
  simp [charAt, h]

theorem charAt_mem (s : List Char) (i : Int) (h0 : 0 ≤ i) (h1 : i < (s.length : Int)) :
    charAt s i ∈ s := by
  rw [charAt_eq_getD s i h0]
  have hlt : i.toNat < s.length := by omega
  rw [List.getD_eq_getElem s _ hlt]
  exact List.getElem_mem hlt

theorem indexOf_mem_range {s : List Char} {c : Char} (h : c ∈ s) :
    0 ≤ indexOf s c ∧ indexOf s c < (s.length : Int) := by
  induction s with
  | nil => cases h
  | cons x xs ih =>
    by_cases hx : (x == c) = true
    · simp [indexOf, hx]
    · have hc : c ∈ xs := by
        rcases List.mem_cons.mp h with h1 | h1
        · exact absurd (beq_iff_eq.mpr h1.symm) hx
        · exact h1
      have := ih hc
      simp only [indexOf, hx, if_false, List.length_cons]
      split
      · omega
      · push_cast
        omega

theorem charAt_indexOf {s : List Char} {c : Char} (h : c ∈ s) :
    charAt s (indexOf s c) = c := by
  induction s with
  | nil => cases h
  | cons x xs ih =>
    by_cases hx : (x == c) = true
    · simp [indexOf, hx, charAt]
      exact beq_iff_eq.mp hx
    · have hc : c ∈ xs := by
        rcases List.mem_cons.mp h with h1 | h1
        · exact absurd (beq_iff_eq.mpr h1.symm) hx
        · exact h1
      have hxf : (x == c) = false := by
        cases hb : (x == c) with
        | false => rfl
        | true => exact absurd hb hx
      have hr := indexOf_mem_range hc
      have hneg : ¬ indexOf xs c < 0 := by omega
      simp only [indexOf, hxf, Bool.false_eq_true, if_false, hneg]
      rw [charAt_eq_getD _ _ (by omega)]
      have ht : (indexOf xs c + 1).toNat = (indexOf xs c).toNat + 1 := by omega
      rw [ht, List.getD_cons_succ]
      rw [charAt_eq_getD _ _ (by omega)] at ih
      exact ih hc

theorem indexOf_getD {s : List Char} (hnd : s.Nodup) (k : Nat) (hk : k < s.length) :
    indexOf s (s.getD k (Char.ofNat 0)) = (k : Int) := by
  induction s generalizing k with
  | nil => simp at hk
  | cons x xs ih =>
    rcases hnd with _ | ⟨hx, hxs⟩
    cases k with
    | zero =>
      simp [indexOf]
    | succ n =>
      rw [List.getD_cons_succ]
      have hn : n < xs.length := by simpa using hk
      have hmem : xs.getD n (Char.ofNat 0) ∈ xs := by
        rw [List.getD_eq_getElem xs _ hn]; exact List.getElem_mem hn
      have hxne : (x == xs.getD n (Char.ofNat 0)) = false := by
        simp only [beq_eq_false_iff_ne, ne_eq]
        intro hEq
        exact (hx _ hmem) hEq
      have hr := indexOf_mem_range hmem
      have hneg : ¬ indexOf xs (xs.getD n (Char.ofNat 0)) < 0 := by omega
      simp only [indexOf, hxne, if_false, hneg]
      rw [ih hxs n hn]
      push_cast
      omega

theorem alphabet_nodup : alphabet.Nodup := by decide

theorem alphabet_length : alphabet.length = 26 := by decide

theorem contains_iff_mem (s : List Char) (c : Char) : s.contains c = true ↔ c ∈ s :=
  List.elem_iff

theorem alphabet_length_int : ((alphabet.length : Nat) : Int) = 26 := by
  rw [alphabet_length]; rfl

theorem indexOf_alphabet_range {c : Char} (hc : c ∈ alphabet) :
    0 ≤ indexOf alphabet c ∧ indexOf alphabet c < 26 := by
  have h := indexOf_mem_range hc
  rw [alphabet_length_int] at h
  exact h

/-! ### Rotor lemmas -/

theorem forward_def (r : Rotor) (c : Char) : r.forward c =
    charAt alphabet (mod (indexOf alphabet
      (charAt r.wiring (mod (indexOf alphabet c + r.position - r.ringSetting) 26))
      - r.position + r.ringSetting) 26) := rfl

theorem backward_def (r : Rotor) (c : Char) : r.backward c =
    charAt alphabet (mod (indexOf r.wiring
      (charAt alphabet (mod (indexOf alphabet c + r.position - r.ringSetting) 26))
      - r.position + r.ringSetting) 26) := rfl

theorem Rotor.forward_mem (r : Rotor) (c : Char) : r.forward c ∈ alphabet := by
  rw [forward_def]
  have h := mod_range (indexOf alphabet
    (charAt r.wiring (mod (indexOf alphabet c + r.position - r.ringSetting) 26))
    - r.position + r.ringSetting)
  exact charAt_mem alphabet _ h.1 (by rw [alphabet_length_int]; exact h.2)

theorem Rotor.backward_mem (r : Rotor) (c : Char) : r.backward c ∈ alphabet := by
  rw [backward_def]
  have h := mod_range (indexOf r.wiring
    (charAt alphabet (mod (indexOf alphabet c + r.position - r.ringSetting) 26))
    - r.position + r.ringSetting)
  exact charAt_mem alphabet _ h.1 (by rw [alphabet_length_int]; exact h.2)

theorem Rotor.backward_forward (r : Rotor) (hw : List.Perm r.wiring alphabet)
    {c : Char} (hc : c ∈ alphabet) : r.backward (r.forward c) = c := by
  have hwlen : ((r.wiring.length : Nat) : Int) = 26 := by
    rw [hw.length_eq, alphabet_length]; rfl
  have hwnd : r.wiring.Nodup := hw.nodup_iff.mpr alphabet_nodup
  have hi := indexOf_alphabet_range hc
  rw [forward_def, backward_def]
  set ip := mod (indexOf alphabet c + r.position - r.ringSetting) 26 with hip
  have hipr := mod_range (indexOf alphabet c + r.position - r.ringSetting)
  rw [← hip] at hipr
  set oc := charAt r.wiring ip with hoc
  have hocw : oc ∈ r.wiring := by
    rw [hoc]; exact charAt_mem r.wiring ip hipr.1 (by omega)
  have hoca : oc ∈ alphabet := hw.subset hocw
  have hj := indexOf_alphabet_range hoca
  set op := mod (indexOf alphabet oc - r.position + r.ringSetting) 26 with hop
  have hopr := mod_range (indexOf alphabet oc - r.position + r.ringSetting)
  rw [← hop] at hopr
  have h1 : indexOf alphabet (charAt alphabet op) = op := by
    rw [charAt_eq_getD _ _ hopr.1,
      indexOf_getD alphabet_nodup op.toNat (by rw [alphabet_length]; omega)]
    omega
  have h2 : mod (indexOf alphabet (charAt alphabet op) + r.position - r.ringSetting) 26
      = indexOf alphabet oc := by
    rw [h1, hop]
    simp only [mod_eq_emod]
    omega
  rw [h2, charAt_indexOf hoca]
  have h3 : indexOf r.wiring oc = ip := by
    rw [hoc, charAt_eq_getD _ _ hipr.1,
      indexOf_getD hwnd ip.toNat (by omega)]
    omega
  rw [h3, hip]
  simp only [mod_eq_emod]
  have h4 : (((indexOf alphabet c + r.position - r.ringSetting) % 26)
      - r.position + r.ringSetting) % 26 = indexOf alphabet c := by omega
  rw [h4, charAt_indexOf hc]

theorem Rotor.forward_backward (r : Rotor) (hw : List.Perm r.wiring alphabet)
    {c : Char} (hc : c ∈ alphabet) : r.forward (r.backward c) = c := by
  have hwlen : ((r.wiring.length : Nat) : Int) = 26 := by
    rw [hw.length_eq, alphabet_length]; rfl
  have hwnd : r.wiring.Nodup := hw.nodup_iff.mpr alphabet_nodup
  have hi := indexOf_alphabet_range hc
  rw [backward_def, forward_def]
  set ip := mod (indexOf alphabet c + r.position - r.ringSetting) 26 with hip
  have hipr := mod_range (indexOf alphabet c + r.position - r.ringSetting)
  rw [← hip] at hipr
  set ac := charAt alphabet ip with hac
  have haca : ac ∈ alphabet := by
    rw [hac]
    exact charAt_mem alphabet ip hipr.1 (by rw [alphabet_length_int]; exact hipr.2)
  have hacw : ac ∈ r.wiring := hw.mem_iff.mpr haca
  have hwp := indexOf_mem_range hacw
  rw [hwlen] at hwp
  set wp := indexOf r.wiring ac with hwpdef
  set op := mod (wp - r.position + r.ringSetting) 26 with hop
  have hopr := mod_range (wp - r.position + r.ringSetting)
  rw [← hop] at hopr
  have h1 : indexOf alphabet (charAt alphabet op) = op := by
    rw [charAt_eq_getD _ _ hopr.1,
      indexOf_getD alphabet_nodup op.toNat (by rw [alphabet_length]; omega)]
    omega
  have h2 : mod (indexOf alphabet (charAt alphabet op) + r.position - r.ringSetting) 26
      = wp := by
    rw [h1, hop]
    simp only [mod_eq_emod]
    omega
  rw [h2, hwpdef, charAt_indexOf hacw]
  have h3 : indexOf alphabet ac = ip := by
    rw [hac, charAt_eq_getD _ _ hipr.1,
      indexOf_getD alphabet_nodup ip.toNat (by rw [alphabet_length]; omega)]
    omega
  rw [h3, hip]
  simp only [mod_eq_emod]
  have h4 : (((indexOf alphabet c + r.position - r.ringSetting) % 26)
      - r.position + r.ringSetting) % 26 = indexOf alphabet c := by omega
  rw [h4, charAt_indexOf hc]

/-! ### Plugboard lemmas -/

theorem plugboardSwap_mem {pairs : List (Char × Char)} :
    alphaPairs pairs = true → ∀ {c : Char}, c ∈ alphabet → plugboardSwap c pairs ∈ alphabet := by
  induction pairs with
  | nil => intro _ c hc; exact hc
  | cons p rest ih =>
    intro ha c hc
    obtain ⟨a, b⟩ := p
    simp only [alphaPairs, List.all_cons, Bool.and_eq_true] at ha
    have haa : a ∈ alphabet := (contains_iff_mem _ _).mp ha.1.1
    have hbb : b ∈ alphabet := (contains_iff_mem _ _).mp ha.1.2
    simp only [plugboardSwap]
    split
    · exact hbb
    · split
      · exact haa
      · exact ih ha.2 hc

theorem plugboardSwap_cases (c : Char) (pairs : List (Char × Char)) :
    plugboardSwap c pairs = c ∨
    ∃ q ∈ pairs, plugboardSwap c pairs = q.1 ∨ plugboardSwap c pairs = q.2 := by
  induction pairs with
  | nil => left; rfl
  | cons p rest ih =>
    obtain ⟨a, b⟩ := p
    simp only [plugboardSwap]
    split
    · right; exact ⟨(a, b), List.mem_cons_self _ _, Or.inr rfl⟩
    · split
      · right; exact ⟨(a, b), List.mem_cons_self _ _, Or.inl rfl⟩
      · rcases ih with h | ⟨q, hq, hh⟩
        · left; exact h
        · right; exact ⟨q, List.mem_cons_of_mem _ hq, hh⟩

theorem plugboardSwap_invol {pairs : List (Char × Char)} :
    validPairs pairs = true → ∀ c, plugboardSwap (plugboardSwap c pairs) pairs = c := by
  induction pairs with
  | nil => intro _ c; rfl
  | cons p rest ih =>
    intro hv c
    obtain ⟨a, b⟩ := p
    simp only [validPairs, Bool.and_eq_true, List.all_eq_true] at hv
    obtain ⟨hdisj, hrest⟩ := hv
    by_cases hca : (c == a) = true
    · have hcb1 : plugboardSwap c ((a, b) :: rest) = b := by simp [plugboardSwap, hca]
      rw [hcb1]
      by_cases hba : (b == a) = true
      · have h2 : plugboardSwap b ((a, b) :: rest) = b := by simp [plugboardSwap, hba]
        rw [h2]
        exact (beq_iff_eq.mp hba).trans (beq_iff_eq.mp hca).symm
      · have h2 : plugboardSwap b ((a, b) :: rest) = a := by simp [plugboardSwap, hba]
        rw [h2]
        exact (beq_iff_eq.mp hca).symm
    · by_cases hcb : (c == b) = true
      · have h1 : plugboardSwap c ((a, b) :: rest) = a := by simp [plugboardSwap, hca, hcb]
        rw [h1]
        have h2 : plugboardSwap a ((a, b) :: rest) = b := by simp [plugboardSwap]
        rw [h2]
        exact (beq_iff_eq.mp hcb).symm
      · have h1 : plugboardSwap c ((a, b) :: rest) = plugboardSwap c rest := by
          simp [plugboardSwap, hca, hcb]
        rw [h1]
        have hne : plugboardSwap c rest ≠ a ∧ plugboardSwap c rest ≠ b := by
          rcases plugboardSwap_cases c rest with h | ⟨q, hq, hh⟩
          · rw [h]
            rw [beq_iff_eq] at hca hcb
            exact ⟨hca, hcb⟩
          · have hd := hdisj q hq
            simp only [Bool.not_eq_eq_eq_not, Bool.not_true, Bool.or_eq_false_iff,
              beq_eq_false_iff_ne, ne_eq] at hd
            rcases hh with hh | hh <;> rw [hh]
            · exact ⟨fun hEq => hd.1.1.1 hEq.symm, fun hEq => hd.1.2 hEq.symm⟩
            · exact ⟨fun hEq => hd.1.1.2 hEq.symm, fun hEq => hd.2 hEq.symm⟩
        have h2 : plugboardSwap (plugboardSwap c rest) ((a, b) :: rest)
            = plugboardSwap (plugboardSwap c rest) rest := by
          have e1 : (plugboardSwap c rest == a) = false := beq_eq_false_iff_ne.mpr hne.1
          have e2 : (plugboardSwap c rest == b) = false := beq_eq_false_iff_ne.mpr hne.2
          simp [plugboardSwap, e1, e2]
        rw [h2]
        exact ih hrest c

/-! ### Reflector lemmas -/

theorem reflect_facts : ∀ c ∈ alphabet, reflect c ∈ alphabet ∧ reflect (reflect c) = c ∧
    reflect c ≠ c := by decide

/-! ### Chain lemmas -/

theorem fwdChain_cons (r : Rotor) (rs : List Rotor) (c : Char) :
    fwdChain (r :: rs) c = r.forward (fwdChain rs c) := rfl

theorem bwdChain_cons (r : Rotor) (rs : List Rotor) (c : Char) :
    bwdChain (r :: rs) c = bwdChain rs (r.backward c) := rfl

theorem fwdChain_mem (rs : List Rotor) {c : Char} (hc : c ∈ alphabet) :
    fwdChain rs c ∈ alphabet := by
  cases rs with
  | nil => exact hc
  | cons r rest => exact Rotor.forward_mem r (fwdChain rest c)

theorem bwdChain_mem (rs : List Rotor) {c : Char} (hc : c ∈ alphabet) :
    bwdChain rs c ∈ alphabet := by
  induction rs generalizing c with
  | nil => exact hc
  | cons r rest ih => exact ih (Rotor.backward_mem r c)

theorem bwdChain_fwdChain (rs : List Rotor)
    (hws : ∀ r ∈ rs, List.Perm r.wiring alphabet) {c : Char} (hc : c ∈ alphabet) :
    bwdChain rs (fwdChain rs c) = c := by
  induction rs with
  | nil => rfl
  | cons r rest ih =>
    rw [fwdChain_cons, bwdChain_cons,
      Rotor.backward_forward r (hws r (List.mem_cons_self _ _)) (fwdChain_mem rest hc)]
    exact ih (fun x hx => hws x (List.mem_cons_of_mem _ hx))

theorem fwdChain_bwdChain (rs : List Rotor)
    (hws : ∀ r ∈ rs, List.Perm r.wiring alphabet) {c : Char} (hc : c ∈ alphabet) :
    fwdChain rs (bwdChain rs c) = c := by
  induction rs generalizing c with
  | nil => rfl
  | cons r rest ih =>
    rw [bwdChain_cons, fwdChain_cons,
      ih (fun x hx => hws x (List.mem_cons_of_mem _ hx)) (Rotor.backward_mem r c)]
    exact Rotor.forward_backward r (hws r (List.mem_cons_self _ _)) hc

/-! ### The per-keystroke substitution (the pipeline after stepping) -/

/-- The substitution encryptChar applies once the rotors have stepped. -/
def cipher (e : Enigma) (c : Char) : Char :=
  plugboardSwap
    (bwdChain e.rotors
      (reflect (fwdChain e.rotors (plugboardSwap c e.plugboardPairs))))
    e.plugboardPairs

theorem encryptChar_alpha {e : Enigma} {c : Char} (hc : alphabet.contains c = true) :
    e.encryptChar c = (cipher e.stepRotors c, e.stepRotors) := by
  unfold Enigma.encryptChar
  rw [hc]
  rfl

theorem encryptChar_nonalpha {e : Enigma} {c : Char} (hc : alphabet.contains c = false) :
    e.encryptChar c = (c, e) := by
  unfold Enigma.encryptChar
  rw [hc]
  rfl

theorem cipher_mem {e : Enigma} (hg : GoodEnigma e) {c : Char} (hc : c ∈ alphabet) :
    cipher e c ∈ alphabet := by
  obtain ⟨hlen, hws, hvp, hap⟩ := hg
  exact plugboardSwap_mem hap (bwdChain_mem _
    ((reflect_facts _ (fwdChain_mem _ (plugboardSwap_mem hap hc))).1))

theorem cipher_mem_alpha {e : Enigma} (hap : alphaPairs e.plugboardPairs = true)
    {c : Char} (hc : c ∈ alphabet) : cipher e c ∈ alphabet :=
  plugboardSwap_mem hap (bwdChain_mem _
    ((reflect_facts _ (fwdChain_mem _ (plugboardSwap_mem hap hc))).1))

theorem cipher_invol {e : Enigma} (hg : GoodEnigma e) {c : Char} (hc : c ∈ alphabet) :
    cipher e (cipher e c) = c := by
  obtain ⟨hlen, hws, hvp, hap⟩ := hg
  have hp1 : plugboardSwap c e.plugboardPairs ∈ alphabet := plugboardSwap_mem hap hc
  have hf1 : fwdChain e.rotors (plugboardSwap c e.plugboardPairs) ∈ alphabet :=
    fwdChain_mem _ hp1
  have hr1 : reflect (fwdChain e.rotors (plugboardSwap c e.plugboardPairs)) ∈ alphabet :=
    (reflect_facts _ hf1).1
  unfold cipher
  rw [plugboardSwap_invol hvp, fwdChain_bwdChain e.rotors hws hr1,
    (reflect_facts _ hf1).2.1, bwdChain_fwdChain e.rotors hws hp1,
    plugboardSwap_invol hvp c]

theorem cipher_ne {e : Enigma} (hg : GoodEnigma e) {c : Char} (hc : c ∈ alphabet) :
    cipher e c ≠ c := by
  obtain ⟨hlen, hws, hvp, hap⟩ := hg
  have hp1 : plugboardSwap c e.plugboardPairs ∈ alphabet := plugboardSwap_mem hap hc
  have hf1 : fwdChain e.rotors (plugboardSwap c e.plugboardPairs) ∈ alphabet :=
    fwdChain_mem _ hp1
  have hr1 : reflect (fwdChain e.rotors (plugboardSwap c e.plugboardPairs)) ∈ alphabet :=
    (reflect_facts _ hf1).1
  intro hEq
  unfold cipher at hEq
  have h2 := congrArg (fun x => plugboardSwap x e.plugboardPairs) hEq
  simp only at h2
  rw [plugboardSwap_invol hvp] at h2
  have h3 := congrArg (fun x => fwdChain e.rotors x) h2
  simp only at h3
  rw [fwdChain_bwdChain e.rotors hws hr1] at h3
  exact (reflect_facts _ hf1).2.2 h3

/-! ### Stepping controller lemmas -/

theorem stepRotors_pairs (e : Enigma) : (e.stepRotors).plugboardPairs = e.plugboardPairs := rfl

theorem step_wiring (r : Rotor) : (Rotor.step r).wiring = r.wiring := rfl

theorem stepRotors_cons (a b c : Rotor) (pairs : List (Char × Char)) :
    Enigma.stepRotors ⟨[a, b, c], pairs⟩ =
      ⟨[if b.atNotch || (if c.atNotch then b.step else b).atNotch then a.step else a,
        if b.atNotch || (if c.atNotch then b.step else b).atNotch
          then (if c.atNotch then b.step else b).step
          else (if c.atNotch then b.step else b),
        c.step], pairs⟩ := by
  cases hc : c.atNotch <;> cases hb : b.atNotch <;>
    simp [Enigma.stepRotors, hc, hb] <;>
    cases hbs : b.step.atNotch <;> simp [hbs]

theorem good_step {e : Enigma} (hg : GoodEnigma e) : GoodEnigma e.stepRotors := by
  obtain ⟨hlen, hws, hvp, hap⟩ := hg
  cases e with
  | mk rotors pairs =>
    obtain ⟨a, b, c, hE⟩ := List.length_eq_three.mp hlen
    simp only at hE hws hvp hap
    subst hE
    have ha := hws a (by simp)
    have hb := hws b (by simp)
    have hcp := hws c (by simp)
    rw [stepRotors_cons]
    refine ⟨rfl, ?_, hvp, hap⟩
    intro r hr
    have hwX : List.Perm (if c.atNotch = true then b.step else b).wiring alphabet := by
      by_cases hcn : c.atNotch = true
      · rw [if_pos hcn, step_wiring]; exact hb
      · rw [if_neg hcn]; exact hb
    rcases List.mem_cons.mp hr with h | h2
    · subst h
      by_cases hdd : (b.atNotch || (if c.atNotch = true then b.step else b).atNotch) = true
      · rw [if_pos hdd, step_wiring]; exact ha
      · rw [if_neg hdd]; exact ha
    rcases List.mem_cons.mp h2 with h | h3
    · subst h
      by_cases hdd : (b.atNotch || (if c.atNotch = true then b.step else b).atNotch) = true
      · rw [if_pos hdd, step_wiring]; exact hwX
      · rw [if_neg hdd]; exact hwX
    rcases List.mem_cons.mp h3 with h | h4
    · subst h
      rw [step_wiring]; exact hcp
    · cases h4

theorem stepRotors_length3 {e : Enigma} (h : e.rotors.length = 3) :
    (e.stepRotors).rotors.length = 3 := by
  cases e with
  | mk rotors pairs =>
    obtain ⟨a, b, c, hE⟩ := List.length_eq_three.mp h
    simp only at hE
    subst hE
    rw [stepRotors_cons]
    rfl

theorem rightPos_stepRotors {e : Enigma} (hlen : e.rotors.length = 3) :
    rightPos e.stepRotors = mod (rightPos e + 1) 26 := by
  cases e with
  | mk rotors pairs =>
    obtain ⟨a, b, c, hE⟩ := List.length_eq_three.mp hlen
    simp only at hE
    subst hE
    rw [stepRotors_cons]
    rfl

/-! ### Process lemmas -/

theorem process_cons (e : Enigma) (c : Char) (cs : List Char) :
    e.process (c :: cs) = ((e.encryptChar c).1 :: ((e.encryptChar c).2.process cs).1,
      ((e.encryptChar c).2.process cs).2) := rfl

theorem process_cons_nonalpha {e : Enigma} {c : Char} (cs : List Char)
    (hc : alphabet.contains c = false) :
    e.process (c :: cs) = (c :: (e.process cs).1, (e.process cs).2) := by
  rw [process_cons, encryptChar_nonalpha hc]

theorem process_cons_alpha {e : Enigma} {c : Char} (cs : List Char)
    (hc : alphabet.contains c = true) :
    e.process (c :: cs) = (cipher e.stepRotors c :: (e.stepRotors.process cs).1,
      (e.stepRotors.process cs).2) := by
  rw [process_cons, encryptChar_alpha hc]

theorem process_reciprocal {e : Enigma} (hg : GoodEnigma e) {m : List Char}
    (hm : ∀ ch ∈ m, ch ∈ alphabet) : (e.process (e.process m).1).1 = m := by
  induction m generalizing e with
  | nil => rfl
  | cons c cs ih =>
    have hc : c ∈ alphabet := hm c (List.mem_cons_self _ _)
    have hcb : alphabet.contains c = true := (contains_iff_mem _ _).mpr hc
    have hg1 : GoodEnigma e.stepRotors := good_step hg
    have hcs : ∀ ch ∈ cs, ch ∈ alphabet := fun ch h => hm ch (List.mem_cons_of_mem _ h)
    have hcc : cipher e.stepRotors c ∈ alphabet := cipher_mem hg1 hc
    have hccb : alphabet.contains (cipher e.stepRotors c) = true :=
      (contains_iff_mem _ _).mpr hcc
    rw [process_cons_alpha cs hcb]
    show (e.process (cipher e.stepRotors c :: (e.stepRotors.process cs).1)).1 = c :: cs
    rw [process_cons_alpha _ hccb]
    show cipher e.stepRotors (cipher e.stepRotors c)
        :: (e.stepRotors.process ((e.stepRotors.process cs).1)).1 = c :: cs
    rw [cipher_invol hg1 hc, ih hg1 hcs]

theorem process_nonalpha {e : Enigma} {text : List Char}
    (h : ∀ c ∈ text, alphabet.contains c = false) : e.process text = (text, e) := by
  induction text with
  | nil => rfl
  | cons c cs ih =>
    rw [process_cons_nonalpha cs (h c (List.mem_cons_self _ _)),
      ih (fun x hx => h x (List.mem_cons_of_mem _ hx))]

theorem rightPos_process {e : Enigma} (hlen : e.rotors.length = 3)
    (hp : 0 ≤ rightPos e ∧ rightPos e < 26) (text : List Char) :
    rightPos (e.process text).2 = mod (rightPos e + (countAlpha text : Int)) 26 := by
  induction text generalizing e with
  | nil =>
    show rightPos e = mod (rightPos e + ((List.countP _ [] : Nat) : Int)) 26
    rw [mod_eq_emod]
    simp only [List.countP_nil]
    omega
  | cons c cs ih =>
    cases hc : alphabet.contains c with
    | false =>
      rw [process_cons_nonalpha cs hc]
      show rightPos (e.process cs).2 = _
      rw [ih hlen hp]
      have hcount : countAlpha (c :: cs) = countAlpha cs := by
        unfold countAlpha
        rw [List.countP_cons]
        simp only [hc]
        rfl
      rw [hcount]
    | true =>
      rw [process_cons_alpha cs hc]
      show rightPos (e.stepRotors.process cs).2 = _
      have hlen1 := stepRotors_length3 hlen
      have hr1 := rightPos_stepRotors hlen
      have hrange := mod_range (rightPos e + 1)
      rw [ih hlen1 (by rw [hr1]; exact hrange), hr1]
      have hcount : countAlpha (c :: cs) = countAlpha cs + 1 := by
        unfold countAlpha
        rw [List.countP_cons]
        simp only [hc]
        rfl
      rw [hcount]
      simp only [mod_eq_emod]
      push_cast
      omega

/-! ### Valid configurations -/

theorem catalog_perm : ∀ rd ∈ ROTORS, List.Perm rd.wiring alphabet := by decide

theorem valid_good {e : Enigma} (hv : ValidEnigma e) : GoodEnigma e := by
  obtain ⟨hlen, hrot, hvp, hap⟩ := hv
  refine ⟨hlen, ?_, hvp, hap⟩
  intro r hr
  exact catalog_perm _ (hrot r hr).1

/-- The machine with rotors [I, II, III] at the given positions and ring
settings (the interactive front end always chooses rotor order [0, 1, 2]). -/
def machineAt (p0 p1 p2 rg0 rg1 rg2 : Int) (pairs : List (Char × Char)) : Enigma :=
  ⟨[⟨(ROTORS.getD 0 default).wiring, (ROTORS.getD 0 default).notch, rg0, p0⟩,
    ⟨(ROTORS.getD 1 default).wiring, (ROTORS.getD 1 default).notch, rg1, p1⟩,
    ⟨(ROTORS.getD 2 default).wiring, (ROTORS.getD 2 default).notch, rg2, p2⟩], pairs⟩

/-! ### Claims -/

/-- Claim C1: for every uppercase-only message m and every valid configuration
(three catalog rotors, positions and ring settings in [0,25], plugboard pairs
in which each letter appears in at most one pair), two machines with identical
configuration are reciprocal: if the first produces ctext from m, the second
produces m from ctext. -/
theorem enigma_reciprocity (e : Enigma) (hK : ValidEnigma e) (m ctext : List Char)
    (hm : ∀ ch ∈ m, ch ∈ alphabet) (henc : (e.process m).1 = ctext) :
    (e.process ctext).1 = m := by
  subst henc
  exact process_reciprocal (valid_good hK) hm

/-- Witness for C1 at rotors [I,II,III], positions [1,2,3], rings [2,4,6],
plugboard (A B)(C D), message SECRET. -/
theorem enigma_reciprocity_witness :
    ValidEnigma (machineAt 1 2 3 2 4 6 [('A', 'B'), ('C', 'D')]) ∧
    (∀ ch ∈ "SECRET".toList, ch ∈ alphabet) ∧
    ((machineAt 1 2 3 2 4 6 [('A', 'B'), ('C', 'D')]).process
      (((machineAt 1 2 3 2 4 6 [('A', 'B'), ('C', 'D')]).process "SECRET".toList).1)).1
      = "SECRET".toList :=
  ⟨by decide, by decide,
    enigma_reciprocity _ (by decide) _ _ (by decide) rfl⟩

/-- Claim C2: one keystroke steps the rotors exactly in source order — middle
steps when right is at its notch; left and middle step when middle was at its
notch before that conditional step or is at it after; right always steps — and
from positions [0,3,21] with rotors [I,II,III] one character yields [1,5,22]. -/
theorem stepping_order :
    (∀ (a b c : Rotor) (pairs : List (Char × Char)),
      Enigma.stepRotors ⟨[a, b, c], pairs⟩ =
        ⟨[if b.atNotch || (if c.atNotch then b.step else b).atNotch then a.step else a,
          if b.atNotch || (if c.atNotch then b.step else b).atNotch
            then (if c.atNotch then b.step else b).step
            else (if c.atNotch then b.step else b),
          c.step], pairs⟩) ∧
    ((machineAt 0 3 21 0 0 0 []).encryptChar 'A').2.positions = [1, 5, 22] :=
  ⟨stepRotors_cons, by decide⟩

/-- Claim C3: a character outside A-Z is returned unchanged with the machine
state untouched; in particular processing "123!@#" is the identity on both the
text and the state (and lowercase letters are non-alphabetic passthrough). -/
theorem nonalpha_passthrough :
    (∀ (e : Enigma) (c : Char), alphabet.contains c = false → e.encryptChar c = (c, e)) ∧
    (∀ e : Enigma, e.process "123!@#".toList = ("123!@#".toList, e)) :=
  ⟨fun _ _ hc => encryptChar_nonalpha hc,
   fun _ => process_nonalpha (by decide)⟩

/-- Witness for C3 at a lowercase letter and a concrete machine. -/
theorem nonalpha_passthrough_witness :
    alphabet.contains 'a' = false ∧
    (machineAt 0 0 0 0 0 0 []).encryptChar 'a' = ('a', machineAt 0 0 0 0 0 0 []) :=
  ⟨by decide, nonalpha_passthrough.1 (machineAt 0 0 0 0 0 0 []) 'a' (by decide)⟩

/-- Counterexample to claim C4: a configuration with rotor positions 30, -5,
100 and ring setting 99 — all far outside [0,25] — is accepted and a machine
is produced, so malformed configurations do not fail at construction. -/
theorem construction_out_of_range_succeeds :
    (Enigma.make [0, 1, 2] [30, -5, 100] [99, 0, 0] []).isSome = true := by decide

/-- Amended claim C4: the constructor validates nothing itself — any ring
settings and positions are accepted, and a wrong rotor count also constructs
(a machine with that many rotors) — and only an unknown rotor identifier
aborts construction (undefined catalog entry access), with no machine
produced. -/
theorem construction_no_validation :
    (∀ (ps rs : List Int) (pairs : List (Char × Char)),
      (Enigma.make [0, 1, 2] ps rs pairs).isSome = true) ∧
    (∀ (ps rs : List Int) (pairs : List (Char × Char)),
      (Enigma.make [0, 1] ps rs pairs).isSome = true) ∧
    (∀ (ps rs : List Int) (pairs : List (Char × Char)),
      Enigma.make [0, 1, 3] ps rs pairs = none) :=
  ⟨fun _ _ _ => rfl, fun _ _ _ => rfl, fun _ _ _ => rfl⟩

/-- Claim C5: for every rotor whose wiring is a permutation of the alphabet,
every position and ring setting in [0,25], and every letter, forward and
backward are exact inverses of one another. -/
theorem rotor_inverse (w : List Char) (hw : List.Perm w alphabet)
    (nt : Char) (position ringSetting : Int)
    (hpos : 0 ≤ position ∧ position < 26) (hring : 0 ≤ ringSetting ∧ ringSetting < 26)
    {c : Char} (hc : c ∈ alphabet) :
    Rotor.backward ⟨w, nt, ringSetting, position⟩
      (Rotor.forward ⟨w, nt, ringSetting, position⟩ c) = c ∧
    Rotor.forward ⟨w, nt, ringSetting, position⟩
      (Rotor.backward ⟨w, nt, ringSetting, position⟩ c) = c :=
  ⟨Rotor.backward_forward _ hw hc, Rotor.forward_backward _ hw hc⟩

/-- Witness for C5 at rotor I's wiring, position 3, ring setting 5, letter A. -/
theorem rotor_inverse_witness :
    List.Perm (ROTORS.getD 0 default).wiring alphabet ∧
    (0 ≤ (3 : Int) ∧ (3 : Int) < 26) ∧ (0 ≤ (5 : Int) ∧ (5 : Int) < 26) ∧
    'A' ∈ alphabet ∧
    (Rotor.backward ⟨(ROTORS.getD 0 default).wiring, 'Q', 5, 3⟩
      (Rotor.forward ⟨(ROTORS.getD 0 default).wiring, 'Q', 5, 3⟩ 'A') = 'A' ∧
     Rotor.forward ⟨(ROTORS.getD 0 default).wiring, 'Q', 5, 3⟩
      (Rotor.backward ⟨(ROTORS.getD 0 default).wiring, 'Q', 5, 3⟩ 'A') = 'A') :=
  ⟨by decide, by decide, by decide, by decide,
    rotor_inverse _ (by decide) 'Q' 3 5 (by decide) (by decide) (by decide)⟩

/-- Claim C6: when each letter appears in at most one pair, the plugboard
swap is an involution on every character, and it is symmetric: if it maps a
to b it maps b to a. -/
theorem plugboard_involution (pairs : List (Char × Char)) (hv : validPairs pairs = true) :
    (∀ c, plugboardSwap (plugboardSwap c pairs) pairs = c) ∧
    (∀ a b, plugboardSwap a pairs = b → plugboardSwap b pairs = a) := by
  refine ⟨plugboardSwap_invol hv, ?_⟩
  intro a b h
  rw [← h]
  exact plugboardSwap_invol hv a

/-- Witness for C6 at pairs (A B)(C D) and letter C. -/
theorem plugboard_involution_witness :
    validPairs [('A', 'B'), ('C', 'D')] = true ∧
    plugboardSwap (plugboardSwap 'C' [('A', 'B'), ('C', 'D')]) [('A', 'B'), ('C', 'D')] = 'C' :=
  ⟨by decide, (plugboard_involution _ (by decide)).1 'C'⟩

/-- Claim C7: process preserves length, and the output character at every
position i is exactly encryptChar applied, in the state reached after the
first i characters, to the input character at position i. -/
theorem length_preservation (e : Enigma) (text : List Char) :
    ((e.process text).1).length = text.length ∧
    ∀ i, i < text.length →
      ((e.process text).1).getD i (Char.ofNat 0)
        = (((e.process (List.take i text)).2).encryptChar
            (text.getD i (Char.ofNat 0))).1 := by
  induction text generalizing e with
  | nil =>
    refine ⟨rfl, ?_⟩
    intro i hi
    simp at hi
  | cons c cs ih =>
    refine ⟨?_, ?_⟩
    · show ((e.encryptChar c).1 :: ((e.encryptChar c).2.process cs).1).length
        = (c :: cs).length
      rw [List.length_cons, List.length_cons, (ih (e.encryptChar c).2).1]
    · intro i hi
      cases i with
      | zero => rfl
      | succ n =>
        have hn : n < cs.length := by simpa using hi
        exact (ih (e.encryptChar c).2).2 n hn

/-- Witness for C7 at a concrete machine and the text AB, position 1. -/
theorem length_preservation_witness :
    1 < (['A', 'B'] : List Char).length ∧
    (((machineAt 0 0 0 0 0 0 []).process ['A', 'B']).1).getD 1 (Char.ofNat 0)
      = ((((machineAt 0 0 0 0 0 0 []).process (List.take 1 ['A', 'B'])).2).encryptChar
          ((['A', 'B'] : List Char).getD 1 (Char.ofNat 0))).1 :=
  ⟨by decide, (length_preservation (machineAt 0 0 0 0 0 0 []) ['A', 'B']).2 1 (by decide)⟩

/-- Claim C8: from positions [0,0,0] with rotors [I,II,III], the rightmost
rotor's position after processing any text equals the number of alphabetic
characters processed, mod 26 — whatever the ring settings and plugboard — so
one alphabetic character gives 1, five more give 6, and interleaved
non-alphabetic characters cause no stepping. -/
theorem single_step_advancement :
    (∀ (rg0 rg1 rg2 : Int) (pairs : List (Char × Char)) (text : List Char),
      rightPos ((machineAt 0 0 0 rg0 rg1 rg2 pairs).process text).2
        = ((countAlpha text : Nat) : Int) % 26) ∧
    rightPos ((machineAt 0 0 0 0 0 0 []).process ['A']).2 = 1 ∧
    rightPos ((machineAt 0 0 0 0 0 0 []).process "A1bB!CDEF".toList).2 = 6 := by
  refine ⟨?_, by decide, by decide⟩
  intro rg0 rg1 rg2 pairs text
  have h3 : (machineAt 0 0 0 rg0 rg1 rg2 pairs).rotors.length = 3 := rfl
  have h0 : rightPos (machineAt 0 0 0 rg0 rg1 rg2 pairs) = 0 := rfl
  rw [rightPos_process h3 (by rw [h0]; constructor <;> norm_num) text, h0, mod_eq_emod]
  omega

/-- Claim C9: with a valid configuration (catalog rotors, fixed reflector,
positions and rings in [0,25], disjoint alphabetic plug pairs), no letter ever
encrypts to itself, in any such machine state. -/
theorem no_self_encryption (e : Enigma) (hK : ValidEnigma e) {c : Char}
    (hc : c ∈ alphabet) : (e.encryptChar c).1 ≠ c := by
  have hg1 := good_step (valid_good hK)
  rw [encryptChar_alpha ((contains_iff_mem _ _).mpr hc)]
  exact cipher_ne hg1 hc

/-- Witness for C9 at a concrete machine and letter A. -/
theorem no_self_encryption_witness :
    ValidEnigma (machineAt 0 0 0 0 0 0 []) ∧ 'A' ∈ alphabet ∧
    ((machineAt 0 0 0 0 0 0 []).encryptChar 'A').1 ≠ 'A' :=
  ⟨by decide, by decide, no_self_encryption _ (by decide) (by decide)⟩

/-- Claim C10: on every machine from the three-rotor catalog with positions
and rings in [0,25] and uppercase-letter plugboard pairs (disjointness not
required), encrypting a letter of A-Z yields a letter of A-Z, alphabet indices
computed in the pipeline lie in [0,25], and every stage (plugboard, each rotor
forward and backward, reflector) maps the alphabet into the alphabet, so no
lookup leaves its table. -/
theorem alphabetic_closure (e : Enigma) (hK : CatalogEnigma e) {c : Char}
    (hc : c ∈ alphabet) :
    (e.encryptChar c).1 ∈ alphabet ∧
    (0 ≤ indexOf alphabet c ∧ indexOf alphabet c < 26) ∧
    plugboardSwap c e.plugboardPairs ∈ alphabet ∧
    reflect c ∈ alphabet ∧
    (∀ r ∈ e.rotors, r.forward c ∈ alphabet ∧ r.backward c ∈ alphabet) := by
  obtain ⟨hlen, hrot, hap⟩ := hK
  refine ⟨?_, indexOf_alphabet_range hc, plugboardSwap_mem hap hc,
    (reflect_facts _ hc).1, ?_⟩
  · rw [encryptChar_alpha ((contains_iff_mem _ _).mpr hc)]
    have hap1 : alphaPairs (e.stepRotors).plugboardPairs = true := by
      rw [stepRotors_pairs]; exact hap
    exact cipher_mem_alpha hap1 hc
  · intro r _
    exact ⟨Rotor.forward_mem r c, Rotor.backward_mem r c⟩

/-- Witness for C10 at letter A on a machine whose plugboard pairs overlap
(the letter A occurs in two pairs), which valid-configuration machines
exclude but the claim covers. -/
theorem alphabetic_closure_witness :
    CatalogEnigma (machineAt 0 0 0 0 0 0 [('A', 'B'), ('A', 'C')]) ∧ 'A' ∈ alphabet ∧
    ((machineAt 0 0 0 0 0 0 [('A', 'B'), ('A', 'C')]).encryptChar 'A').1 ∈ alphabet :=
  ⟨by decide, by decide,
    (alphabetic_closure (machineAt 0 0 0 0 0 0 [('A', 'B'), ('A', 'C')])
      (by decide) (by decide)).1⟩
